import Mathlib

/-!
Static lookup tables (cq-style): shallow embedding and verification.

Shallow embedding of `src/halo2_proofs/src/plonk/static_lookup.rs`: the
preprocessing of a fixed table of field elements into per-root quotient
commitments (`StaticTableValues::new`), the derivation of the public
committed table (`StaticTableValues::commit`), the lookup argument degree
computation, and the `is_pow_2` / `log2` bit utilities.

Modelling conventions:
* The code is generic over a pairing engine `E`; here `F` stands for
  `E::Scalar` and `G1`, `G2` for the two groups, `F` an arbitrary field with
  a `LinearOrder` (the `Ord` on scalars that `BTreeMap` uses — a plain
  representation order, with no assumed compatibility with the field
  structure), `G1`/`G2` arbitrary modules over `F`.
* `usize`/`u32` arithmetic is `Nat` with explicit wrapping (`wrapSub`,
  `wrapSub32`) where the source relies on wrapping overflow.
* Rust panics (`assert!`, slice-bound panics, `Option::unwrap`) are modelled
  as `Except.error` with the error taxonomy of the specification
  (`InvalidTableSize`, `DuplicateTableValue`, `ReferenceStringTooShort`),
  plus `InversionFailed` for the `invert().unwrap()` of a size that is zero
  in the field.
* `BTreeMap<E::Scalar, usize>` is modelled as a sorted association list
  built by ordered insertion (`mapInsert` / `buildMap`); later inserts with
  an equal key replace earlier ones, and `keys()` is iteration in ascending
  key order, exactly as for the Rust container.
* The evaluation-domain service (`EvaluationDomain::new`, `get_omega`,
  `get_omega_inv`, `ifft_divisor`) is an external collaborator: it is a
  parameter `dom : Nat → Nat → DomainData F`, applied to the same arguments
  `(2, log2 size)` the source passes to `EvaluationDomain::new`.
-/

namespace StaticLookup

/-- Wrapping subtraction on `usize` values (64-bit): `a - b` under two's
complement wraparound, for `a < 2 ^ 64`. -/
def wrapSub (a b : Nat) : Nat := (a + 2 ^ 64 - b % 2 ^ 64) % 2 ^ 64

/-- Wrapping subtraction on `u32` values, for `a < 2 ^ 32`. -/
def wrapSub32 (a b : Nat) : Nat := (a + 2 ^ 32 - b % 2 ^ 32) % 2 ^ 32

/-- Source `pub fn is_pow_2(x: usize) -> bool { (x & (x - 1)) == 0 }`
(static_lookup.rs lines 23-25); `x - 1` wraps for `x = 0`. -/
def is_pow_2 (x : Nat) : Bool := (x &&& wrapSub x 1) == 0

/-- Model of `usize::leading_zeros` for values below `2 ^ 64`. -/
def leadingZeros64 (x : Nat) : Nat := if x = 0 then 64 else 63 - Nat.log2 x

/-- Source `pub fn log2(x: usize) -> u32 { (usize::BITS - 1) - x.leading_zeros() }`
(static_lookup.rs lines 27-29); the `u32` subtraction wraps for `x = 0`. -/
def log2 (x : Nat) : Nat := wrapSub32 (64 - 1) (leadingZeros64 x)

/-- The data the evaluation-domain service supplies to this module: the
primitive root of unity `omega` of the domain, its inverse, and the
inverse-FFT normalization divisor. -/
structure DomainData (F : Type) where
  omega : F
  omega_inv : F
  ifft_divisor : F
  deriving DecidableEq

/-- The error taxonomy of the specification (§7); `InversionFailed` stands
for the `invert().unwrap()` panic on a table size that is zero in `F`. -/
inductive TableError where
  | InvalidTableSize
  | DuplicateTableValue
  | ReferenceStringTooShort
  | InversionFailed
  deriving DecidableEq

deriving instance DecidableEq for Except

/-- Model of `ff::Field::invert` (external primitive): `none` exactly on zero. -/
def invert {F : Type} [Field F] [DecidableEq F] (x : F) : Option F :=
  if x = 0 then none else some x⁻¹

/-- Modelled from the spec: `EvaluationDomain::ifft` of halo2_proofs/src/poly
(this repository, not under src/) — "inverse FFT with explicit root of unity
and its inverse, and an inverse-FFT normalization divisor" (§6). The inverse
discrete Fourier transform of the evaluations `a` at the given inverse root,
scaled by the divisor; `k` is the log2 of the length, carried along as in the
source signature. -/
def ifft {F : Type} [Field F] (a : List F) (omega_inv : F) (k : Nat)
    (ifft_divisor : F) : List F :=
  let n := a.length
  let _ := k
  (List.range n).map fun j =>
    ifft_divisor * (((List.range n).map fun i => a.getD i 0 * omega_inv ^ (i * j)).sum)

/-- Horner pass of synthetic division, over coefficients listed from the
highest degree downwards: each output coefficient is `a + b * previous`. -/
def synthDivAux {F : Type} [Field F] (b : F) : F → List F → List F
  | _, [] => []
  | prev, a :: rest => (a + b * prev) :: synthDivAux b (a + b * prev) rest

/-- Modelled from the spec: `kate_division` of halo2_proofs/src/arithmetic.rs
(this repository, not under src/) — "a polynomial-division-at-a-point
primitive (synthetic division producing quotient coefficients given dividend
coefficients and the evaluation point)" (§6). Coefficients are listed from
the constant term upwards; the remainder (the last synthetic-division value)
is dropped, so the result is the quotient `(p(X) - p(b)) / (X - b)`. -/
def kate_division {F : Type} [Field F] (a : List F) (b : F) : List F :=
  match a.reverse with
  | [] => []
  | hd :: tl => ((hd :: synthDivAux b hd tl).dropLast).reverse

/-- Modelled from the spec: `best_multiexp` of halo2_proofs/src/arithmetic.rs
(this repository, not under src/) — "a multi-scalar-multiplication primitive:
`Σ scalar_i · point_i` over matched-length scalar and point arrays" (§6). -/
def best_multiexp {F G : Type} [Field F] [AddCommMonoid G] [Module F G]
    (coeffs : List F) (bases : List G) : G :=
  (List.zipWith (fun c p => c • p) coeffs bases).sum

/-- Ordered insertion into the sorted association list modelling
`BTreeMap<E::Scalar, usize>`: keeps keys strictly ascending, replaces the
value on an equal key. -/
def mapInsert {F : Type} [LinearOrder F] :
    List (F × Nat) → F → Nat → List (F × Nat)
  | [], k, v => [(k, v)]
  | kv :: rest, k, v =>
    if k < kv.1 then (k, v) :: kv :: rest
    else if k = kv.1 then (k, v) :: rest
    else kv :: mapInsert rest k v

/-- Fold of `mapInsert` over `(value, index)` pairs in array order, the index
starting at `i`. -/
def buildMapAux {F : Type} [LinearOrder F] :
    List (F × Nat) → Nat → List F → List (F × Nat)
  | m, _, [] => m
  | m, i, f :: rest => buildMapAux (mapInsert m f i) (i + 1) rest

/-- Source `values.iter().enumerate().map(|(i, &f)| (f, i)).collect::<BTreeMap<_, _>>()`
(static_lookup.rs lines 83-84). -/
def buildMap {F : Type} [LinearOrder F] (values : List F) : List (F × Nat) :=
  buildMapAux [] 0 values

/-- List of `n` successive products starting at `p`: `[p, p*w, (p*w)*w, …]`. -/
def powersFrom {F : Type} [Field F] (w : F) : Nat → F → List F
  | 0, _ => []
  | n + 1, p => p :: powersFrom w n (p * w)

/-- Source `std::iter::successors(Some(one), |p| Some(*p * w)).take(size)`
(static_lookup.rs lines 95-98): the fixed enumeration `1, w, w², …`. -/
def rootsOfUnity {F : Type} [Field F] (w : F) (size : Nat) : List F :=
  powersFrom w size 1

/-- Mapping where any failing element fails the whole computation, as an
out-of-bounds slice panic inside the `map` aborts the Rust run. -/
def mapOrNone {α β : Type} (f : α → Option β) : List α → Option (List β)
  | [] => some []
  | a :: rest =>
    match f a, mapOrNone f rest with
    | some b, some bs => some (b :: bs)
    | _, _ => none

/-- The `StaticTableValues` struct (static_lookup.rs lines 68-76): the table
size, the value→index mapping, and the quotient commitments. -/
structure StaticTableValues (F G1 : Type) where
  size : Nat
  value_index_mapping : List (F × Nat)
  qs : List G1
  deriving DecidableEq

/-- The `StaticCommittedTable` struct (static_lookup.rs lines 161-167). -/
structure StaticCommittedTable (G2 : Type) where
  zv : G2
  t : G2
  x_b0_bound : G2
  size : Nat
  deriving DecidableEq

/-- One quotient commitment of `StaticTableValues::new` (lines 111-118): the
synthetic-division quotient of the table coefficients at the root `g`, each
coefficient scaled by `g * n_inv`, committed by multi-scalar multiplication
against the equal-length slice `&srs_g1[..quotient.len()]`. `none` models the
slice-bound panic when `srs_g1` is shorter than the quotient. -/
def quotientCommAt {F G1 : Type} [Field F] [AddCommGroup G1] [Module F G1]
    (srs_g1 : List G1) (n_inv : F) (table_coeffs : List F) (g : F) : Option G1 :=
  let quotient := kate_division table_coeffs g
  let scaled := quotient.map fun v => v * g * n_inv
  if srs_g1.length < scaled.length then none
  else some (best_multiexp scaled (srs_g1.take scaled.length))

/-- The table-polynomial coefficients `new` computes (lines 100-106):
inverse FFT of the original `values` array, in array order, with the domain
data of `EvaluationDomain::new(2, log2(size))`. -/
def newTableCoeffs {F : Type} [Field F] (dom : Nat → Nat → DomainData F)
    (values : List F) : List F :=
  let d := dom 2 (log2 values.length)
  ifft values d.omega_inv (log2 values.length) d.ifft_divisor

/-- Model of `StaticTableValues::new` (static_lookup.rs lines 79-127). The two
`assert!`s become `InvalidTableSize` / `DuplicateTableValue`; the
`invert().unwrap()` becomes `InversionFailed`; a quotient longer than
`srs_g1` becomes `ReferenceStringTooShort` (slice panic). -/
def new {F G1 : Type} [Field F] [LinearOrder F] [AddCommGroup G1] [Module F G1]
    (dom : Nat → Nat → DomainData F) (values : List F) (srs_g1 : List G1) :
    Except TableError (StaticTableValues F G1) :=
  let size := values.length
  if is_pow_2 size then
    let m := buildMap values
    if m.length = size then
      let d := dom 2 (log2 size)
      match invert ((size : Nat) : F) with
      | none => .error .InversionFailed
      | some n_inv =>
        let roots := rootsOfUnity d.omega size
        let table_coeffs := newTableCoeffs dom values
        match mapOrNone (quotientCommAt srs_g1 n_inv table_coeffs) roots with
        | none => .error .ReferenceStringTooShort
        | some qs => .ok ⟨size, m, qs⟩
    else .error .DuplicateTableValue
  else .error .InvalidTableSize

/-- The table-polynomial coefficients `commit` computes (lines 140-146):
inverse FFT of `self.value_index_mapping.keys()`, i.e. of the values in
ascending key order, with the same domain data. -/
def commitTableCoeffs {F G1 : Type} [Field F] (dom : Nat → Nat → DomainData F)
    (tv : StaticTableValues F G1) : List F :=
  let d := dom 2 (log2 tv.size)
  ifft (tv.value_index_mapping.map Prod.fst) d.omega_inv (log2 tv.size) d.ifft_divisor

/-- Model of `StaticTableValues::commit` (static_lookup.rs lines 129-158). Index and
slice panics on `srs_g2` become `ReferenceStringTooShort`; the `assert!` on
the size becomes `InvalidTableSize`. -/
def commit {F G1 G2 : Type} [Field F] [AddCommGroup G1] [Module F G1]
    [AddCommGroup G2] [Module F G2]
    (dom : Nat → Nat → DomainData F) (tv : StaticTableValues F G1)
    (srs_g1_len : Nat) (srs_g2 : List G2) (circuit_domain : Nat) :
    Except TableError (StaticCommittedTable G2) :=
  if is_pow_2 tv.size then
    if tv.size < srs_g2.length then
      let zv := srs_g2.getD tv.size 0 - srs_g2.getD 0 0
      let table_coeffs := commitTableCoeffs dom tv
      if srs_g2.length < table_coeffs.length then .error .ReferenceStringTooShort
      else
        let t := best_multiexp table_coeffs (srs_g2.take table_coeffs.length)
        let b0_bound_index := wrapSub (wrapSub srs_g1_len 1) (wrapSub circuit_domain 2)
        if b0_bound_index < srs_g2.length then
          .ok ⟨zv, t, srs_g2.getD b0_bound_index 0, srs_g1_len⟩
        else .error .ReferenceStringTooShort
    else .error .ReferenceStringTooShort
  else .error .InvalidTableSize

/-- Model of `StaticTableId` (static_lookup.rs lines 38-45): an opaque ordered key. -/
structure StaticTableId (T : Type) where
  id : T
  deriving DecidableEq

/-- Modelled from the spec: the constraint-system `Expression` type of
halo2_proofs/src/plonk (this repository, not under src/) — "an algebraic
expression over circuit columns" (§3), with the usual polynomial degree. -/
inductive Expression (F : Type) where
  | constant : F → Expression F
  | advice : Nat → Expression F
  | negated : Expression F → Expression F
  | sum : Expression F → Expression F → Expression F
  | product : Expression F → Expression F → Expression F
  | scaled : Expression F → F → Expression F

/-- Modelled from the spec: `Expression::degree` — a constant has degree 0, a
queried column degree 1, a sum the max of the degrees, a product the sum of
the degrees, negation and scaling preserve the degree. -/
def Expression.degree {F : Type} : Expression F → Nat
  | .constant _ => 0
  | .advice _ => 1
  | .negated e => e.degree
  | .sum a b => max a.degree b.degree
  | .product a b => a.degree + b.degree
  | .scaled e _ => e.degree

/-- The lookup `Argument` (static_lookup.rs lines 169-173). -/
structure Argument (F : Type) where
  input : Expression F
  table_id : StaticTableId String

/-- Source `Argument::required_degree` (static_lookup.rs lines 180-185):
`std::cmp::max(3, 2 + self.input.degree())`. -/
def Argument.required_degree {F : Type} (a : Argument F) : Nat :=
  max 3 (2 + a.input.degree)

/-- Step 4 of §4.1 as the specification words it: for the `i`-th root `g_i` of
the enumeration `1, w, w², …`, the quotient `(T(X) - T(g_i)) / (X - g_i)` by
synthetic division of the inverse-FFT coefficients of `values`, every
coefficient scaled by `g_i · size⁻¹`, committed against the equal-length
prefix of `srs_g1`. (Stated from the spec, to be compared with `new`.) -/
def specQuotientComm {F G1 : Type} [Field F] [AddCommGroup G1] [Module F G1]
    (dom : Nat → Nat → DomainData F) (values : List F) (srs_g1 : List G1)
    (i : Nat) : G1 :=
  let g := (dom 2 (log2 values.length)).omega ^ i
  let scaled := (kate_division (newTableCoeffs dom values) g).map
    fun v => v * (g * ((values.length : Nat) : F)⁻¹)
  best_multiexp scaled (srs_g1.take scaled.length)

/-! Arithmetic and bit-pattern lemmas. -/

theorem wrapSub_eq_sub {a b : Nat} (hb : b ≤ a) (ha : a < 2 ^ 64) :
    wrapSub a b = a - b := by
  unfold wrapSub
  omega

theorem two_pow_land_pred (k : Nat) : ((2 ^ k) &&& (2 ^ k - 1)) = 0 := by
  apply Nat.eq_of_testBit_eq
  intro i
  rw [Nat.testBit_land, Nat.testBit_two_pow, Nat.testBit_two_pow_sub_one, Nat.zero_testBit]
  by_cases hik : i < k
  · have hki : k ≠ i := by omega
    simp [hki]
  · simp [hik]

theorem land_pred_eq_zero_pow {n : Nat} (h1 : 1 ≤ n) (h : (n &&& (n - 1)) = 0) :
    ∃ k, n = 2 ^ k := by
  refine ⟨n.log2, ?_⟩
  by_contra hne
  have hlow : 2 ^ n.log2 ≤ n := Nat.log2_self_le (by omega)
  have hhigh : n < 2 ^ (n.log2 + 1) := Nat.lt_log2_self
  have hlt : 2 ^ n.log2 < n := lt_of_le_of_ne hlow (fun he => hne he.symm)
  have hp : 0 < 2 ^ n.log2 := Nat.pos_pow_of_pos _ (by norm_num)
  have hhigh2 : n < 2 ^ n.log2 * 2 := by
    rw [pow_succ] at hhigh
    omega
  have hb1 : n.testBit n.log2 = true := by
    rw [Nat.testBit_to_div_mod]
    have ha1 : 1 ≤ n / 2 ^ n.log2 := (Nat.le_div_iff_mul_le hp).mpr (by omega)
    have hb1 : n / 2 ^ n.log2 < 2 := (Nat.div_lt_iff_lt_mul hp).mpr (by omega)
    have hd : n / 2 ^ n.log2 = 1 := by omega
    simp [hd]
  have hb2 : (n - 1).testBit n.log2 = true := by
    rw [Nat.testBit_to_div_mod]
    have ha1 : 1 ≤ (n - 1) / 2 ^ n.log2 := (Nat.le_div_iff_mul_le hp).mpr (by omega)
    have hb1 : (n - 1) / 2 ^ n.log2 < 2 := (Nat.div_lt_iff_lt_mul hp).mpr (by omega)
    have hd : (n - 1) / 2 ^ n.log2 = 1 := by omega
    simp [hd]
  have hz := congrArg (fun m => m.testBit n.log2) h
  simp [Nat.testBit_land, hb1, hb2, Nat.zero_testBit] at hz

theorem is_pow_2_iff {n : Nat} (h1 : 1 ≤ n) (h2 : n < 2 ^ 64) :
    is_pow_2 n = true ↔ ∃ k, n = 2 ^ k := by
  unfold is_pow_2
  rw [wrapSub_eq_sub (by omega) h2, beq_iff_eq]
  constructor
  · intro h
    exact land_pred_eq_zero_pow h1 h
  · rintro ⟨k, rfl⟩
    exact two_pow_land_pred k

/-! Length and indexing lemmas for the polynomial primitives. -/

theorem synthDivAux_length {F : Type} [Field F] (b : F) :
    ∀ (p : F) (l : List F), (synthDivAux b p l).length = l.length
  | _, [] => rfl
  | p, a :: rest => by
    simp [synthDivAux, synthDivAux_length]

theorem kate_division_length {F : Type} [Field F] (a : List F) (b : F) :
    (kate_division a b).length = a.length - 1 := by
  unfold kate_division
  rcases h : a.reverse with _ | ⟨hd, tl⟩
  · have ha : a = [] := by simpa using congrArg List.reverse h
    simp [ha]
  · have hl : a.length = tl.length + 1 := by
      have := congrArg List.length h
      simp at this
      omega
    simp [List.length_dropLast, synthDivAux_length, hl]

theorem ifft_length {F : Type} [Field F] (a : List F) (w : F) (k : Nat) (d : F) :
    (ifft a w k d).length = a.length := by
  simp [ifft]

theorem powersFrom_length {F : Type} [Field F] (w : F) :
    ∀ (n : Nat) (p : F), (powersFrom w n p).length = n
  | 0, _ => rfl
  | n + 1, p => by
    simp [powersFrom, powersFrom_length]

theorem powersFrom_getD {F : Type} [Field F] (w : F) :
    ∀ (n i : Nat) (p : F), i < n → (powersFrom w n p).getD i 0 = p * w ^ i
  | 0, i, p, h => absurd h (Nat.not_lt_zero i)
  | n + 1, 0, p, _ => by simp [powersFrom]
  | n + 1, i + 1, p, h => by
    have ih := powersFrom_getD w n i (p * w) (by omega)
    simp only [powersFrom, List.getD_cons_succ, ih]
    ring

theorem rootsOfUnity_length {F : Type} [Field F] (w : F) (n : Nat) :
    (rootsOfUnity w n).length = n :=
  powersFrom_length w n 1

theorem rootsOfUnity_getD {F : Type} [Field F] (w : F) {n i : Nat} (h : i < n) :
    (rootsOfUnity w n).getD i 0 = w ^ i := by
  rw [rootsOfUnity, powersFrom_getD w n i 1 h, one_mul]

/-! Lemmas about `mapOrNone`. -/

theorem mapOrNone_length {α β : Type} (f : α → Option β) :
    ∀ (l : List α) (out : List β), mapOrNone f l = some out → out.length = l.length
  | [], out, h => by
    simp only [mapOrNone, Option.some.injEq] at h
    simp [← h]
  | a :: rest, out, h => by
    rw [mapOrNone] at h
    rcases hfa : f a with _ | b <;> rcases hrest : mapOrNone f rest with _ | bs <;>
      simp [hfa, hrest] at h
    subst h
    simp [mapOrNone_length f rest bs hrest]

theorem mapOrNone_getD {α β : Type} (f : α → Option β) (da : α) (db : β) :
    ∀ (l : List α) (out : List β), mapOrNone f l = some out →
      ∀ i, i < l.length → f (l.getD i da) = some (out.getD i db)
  | [], out, h, i, hi => absurd hi (by simp)
  | a :: rest, out, h, i, hi => by
    rw [mapOrNone] at h
    rcases hfa : f a with _ | b <;> rcases hrest : mapOrNone f rest with _ | bs <;>
      simp [hfa, hrest] at h
    subst h
    match i with
    | 0 => simpa using hfa
    | i + 1 =>
      have hi2 : i < rest.length := by simpa using hi
      simpa using mapOrNone_getD f da db rest bs hrest i hi2

theorem mapOrNone_eq_some_of_forall {α β : Type} (f : α → Option β) :
    ∀ (l : List α), (∀ a ∈ l, (f a).isSome = true) → ∃ out, mapOrNone f l = some out
  | [], _ => ⟨[], rfl⟩
  | a :: rest, h => by
    have hfa : (f a).isSome = true := h a (by simp)
    rcases Option.isSome_iff_exists.mp hfa with ⟨b, hb⟩
    rcases mapOrNone_eq_some_of_forall f rest (fun x hx => h x (by simp [hx])) with ⟨bs, hbs⟩
    exact ⟨b :: bs, by rw [mapOrNone, hb, hbs]⟩

/-! Lemmas about the ordered-map model `mapInsert` / `buildMap`. -/

theorem mapInsert_keys_mem {F : Type} [LinearOrder F] (x k : F) (v : Nat) :
    ∀ (m : List (F × Nat)),
      (x ∈ (mapInsert m k v).map Prod.fst ↔ x = k ∨ x ∈ m.map Prod.fst)
  | [] => by simp [mapInsert]
  | kv :: rest => by
    rw [mapInsert]
    rcases lt_trichotomy k kv.1 with h1 | h1 | h1
    · simp only [if_pos h1, List.map_cons, List.mem_cons]
    · subst h1
      rw [if_neg (lt_irrefl kv.1), if_pos rfl]
      simp only [List.map_cons, List.mem_cons]
      tauto
    · rw [if_neg (not_lt_of_gt h1), if_neg (ne_of_gt h1)]
      simp only [List.map_cons, List.mem_cons, mapInsert_keys_mem x k v rest]
      tauto

theorem mapInsert_keys_sorted {F : Type} [LinearOrder F] (k : F) (v : Nat) :
    ∀ (m : List (F × Nat)), List.Sorted (· < ·) (m.map Prod.fst) →
      List.Sorted (· < ·) ((mapInsert m k v).map Prod.fst)
  | [], _ => by simp [mapInsert]
  | kv :: rest, hs => by
    rw [List.map_cons, List.sorted_cons] at hs
    rcases hs with ⟨hhead, hrest⟩
    rw [mapInsert]
    rcases lt_trichotomy k kv.1 with h1 | h1 | h1
    · rw [if_pos h1]
      simp only [List.map_cons, List.sorted_cons]
      refine ⟨?_, ?_, hrest⟩
      · intro b hb
        simp only [List.mem_cons] at hb
        rcases hb with hb | hb
        · rw [hb]
          exact h1
        · exact lt_trans h1 (hhead b hb)
      · exact hhead
    · subst h1
      rw [if_neg (lt_irrefl kv.1), if_pos rfl]
      simp only [List.map_cons, List.sorted_cons]
      exact ⟨hhead, hrest⟩
    · rw [if_neg (not_lt_of_gt h1), if_neg (ne_of_gt h1)]
      simp only [List.map_cons, List.sorted_cons]
      refine ⟨?_, mapInsert_keys_sorted k v rest hrest⟩
      intro b hb
      rcases (mapInsert_keys_mem b k v rest).mp hb with hb | hb
      · rw [hb]
        exact h1
      · exact hhead b hb

theorem buildMapAux_keys_mem {F : Type} [LinearOrder F] (x : F) :
    ∀ (l : List F) (m : List (F × Nat)) (i : Nat),
      (x ∈ (buildMapAux m i l).map Prod.fst ↔ x ∈ m.map Prod.fst ∨ x ∈ l)
  | [], m, i => by simp [buildMapAux]
  | f :: rest, m, i => by
    rw [buildMapAux, buildMapAux_keys_mem x rest (mapInsert m f i) (i + 1),
      mapInsert_keys_mem]
    simp only [List.mem_cons]
    tauto

theorem buildMapAux_keys_sorted {F : Type} [LinearOrder F] :
    ∀ (l : List F) (m : List (F × Nat)) (i : Nat),
      List.Sorted (· < ·) (m.map Prod.fst) →
      List.Sorted (· < ·) ((buildMapAux m i l).map Prod.fst)
  | [], _, _, hs => hs
  | f :: rest, m, i, hs => by
    rw [buildMapAux]
    exact buildMapAux_keys_sorted rest (mapInsert m f i) (i + 1)
      (mapInsert_keys_sorted f i m hs)

theorem buildMap_keys_sorted {F : Type} [LinearOrder F] (values : List F) :
    List.Sorted (· < ·) ((buildMap values).map Prod.fst) :=
  buildMapAux_keys_sorted values [] 0 (by simp)

theorem buildMap_keys_mem {F : Type} [LinearOrder F] (x : F) (values : List F) :
    x ∈ (buildMap values).map Prod.fst ↔ x ∈ values := by
  rw [buildMap, buildMapAux_keys_mem]
  simp

theorem buildMap_keys_toFinset {F : Type} [LinearOrder F] (values : List F) :
    ((buildMap values).map Prod.fst).toFinset = values.toFinset := by
  ext x
  simp only [List.mem_toFinset]
  exact buildMap_keys_mem x values

theorem buildMap_length {F : Type} [LinearOrder F] (values : List F) :
    (buildMap values).length = values.dedup.length := by
  have hn : ((buildMap values).map Prod.fst).Nodup := (buildMap_keys_sorted values).nodup
  have h1 := List.toFinset_card_of_nodup hn
  rw [buildMap_keys_toFinset values, List.card_toFinset, List.length_map] at h1
  exact h1.symm

theorem buildMap_length_of_nodup {F : Type} [LinearOrder F] {values : List F}
    (h : values.Nodup) : (buildMap values).length = values.length := by
  rw [buildMap_length, List.dedup_eq_self.mpr h]

theorem buildMap_length_ne_of_dup {F : Type} [LinearOrder F] {values : List F}
    (h : ¬ values.Nodup) : (buildMap values).length ≠ values.length := by
  rw [buildMap_length]
  intro he
  exact h (List.dedup_eq_self.mp ((List.dedup_sublist values).eq_of_length he))

theorem buildMap_keys_of_sorted {F : Type} [LinearOrder F] {values : List F}
    (h : List.Sorted (· < ·) values) : (buildMap values).map Prod.fst = values := by
  have hs := buildMap_keys_sorted values
  have hperm : ((buildMap values).map Prod.fst).Perm values :=
    List.perm_of_nodup_nodup_toFinset_eq hs.nodup h.nodup (buildMap_keys_toFinset values)
  exact List.eq_of_perm_of_sorted hperm (hs.imp fun hab => le_of_lt hab)
    (h.imp fun hab => le_of_lt hab)

/-! Inversion lemmas for `new` and `commit`. -/

theorem new_ok {F G1 : Type} [Field F] [LinearOrder F] [AddCommGroup G1] [Module F G1]
    {dom : Nat → Nat → DomainData F} {values : List F} {srs_g1 : List G1}
    {tv : StaticTableValues F G1} (h : new dom values srs_g1 = .ok tv) :
    is_pow_2 values.length = true ∧
    (buildMap values).length = values.length ∧
    ((values.length : Nat) : F) ≠ 0 ∧
    tv.size = values.length ∧
    tv.value_index_mapping = buildMap values ∧
    mapOrNone
      (quotientCommAt srs_g1 (((values.length : Nat) : F))⁻¹ (newTableCoeffs dom values))
      (rootsOfUnity ((dom 2 (log2 values.length)).omega) values.length) = some tv.qs := by
  obtain ⟨ts, tm, tq⟩ := tv
  simp only [new] at h
  by_cases hp : is_pow_2 values.length = true
  swap
  · simp [hp] at h
  by_cases hm : (buildMap values).length = values.length
  swap
  · simp [hp, hm] at h
  by_cases hz : ((values.length : Nat) : F) = 0
  · simp [hp, hm, invert, hz] at h
  rcases hq : mapOrNone
      (quotientCommAt srs_g1 (((values.length : Nat) : F))⁻¹ (newTableCoeffs dom values))
      (rootsOfUnity ((dom 2 (log2 values.length)).omega) values.length) with _ | qs
  · simp [hp, hm, invert, hz, hq] at h
  · simp [hp, hm, invert, hz, hq] at h
    rcases h with ⟨h1, h2, h3⟩
    subst h1
    subst h2
    subst h3
    exact ⟨hp, hm, hz, rfl, rfl, rfl⟩

theorem new_succeeds {F G1 : Type} [Field F] [LinearOrder F] [AddCommGroup G1] [Module F G1]
    (dom : Nat → Nat → DomainData F) (values : List F) (srs_g1 : List G1)
    (hp : is_pow_2 values.length = true) (hnd : values.Nodup)
    (hz : ((values.length : Nat) : F) ≠ 0) (hsrs : values.length - 1 ≤ srs_g1.length) :
    ∃ tv, new dom values srs_g1 = .ok tv := by
  have hm : (buildMap values).length = values.length := buildMap_length_of_nodup hnd
  have hq : ∀ g ∈ rootsOfUnity ((dom 2 (log2 values.length)).omega) values.length,
      (quotientCommAt srs_g1 (((values.length : Nat) : F))⁻¹
        (newTableCoeffs dom values) g).isSome = true := by
    intro g _
    rw [quotientCommAt]
    have hlen : ((kate_division (newTableCoeffs dom values) g).map
        fun v => v * g * (((values.length : Nat) : F))⁻¹).length = values.length - 1 := by
      simp [kate_division_length, ifft_length, newTableCoeffs]
    simp only [hlen]
    rw [if_neg (by omega)]
    simp
  rcases mapOrNone_eq_some_of_forall _ _ hq with ⟨qs, hqs⟩
  refine ⟨⟨values.length, buildMap values, qs⟩, ?_⟩
  simp only [new, hp, if_true, hm, if_pos rfl]
  rw [invert, if_neg hz]
  simp only [hqs]

theorem commit_ok {F G1 G2 : Type} [Field F] [AddCommGroup G1] [Module F G1]
    [AddCommGroup G2] [Module F G2]
    {dom : Nat → Nat → DomainData F} {tv : StaticTableValues F G1}
    {R : Nat} {srs_g2 : List G2} {D : Nat} {ct : StaticCommittedTable G2}
    (h : commit dom tv R srs_g2 D = .ok ct) :
    is_pow_2 tv.size = true ∧
    tv.size < srs_g2.length ∧
    ¬ srs_g2.length < (commitTableCoeffs dom tv).length ∧
    wrapSub (wrapSub R 1) (wrapSub D 2) < srs_g2.length ∧
    ct = ⟨srs_g2.getD tv.size 0 - srs_g2.getD 0 0,
          best_multiexp (commitTableCoeffs dom tv)
            (srs_g2.take (commitTableCoeffs dom tv).length),
          srs_g2.getD (wrapSub (wrapSub R 1) (wrapSub D 2)) 0, R⟩ := by
  simp only [commit] at h
  by_cases hp : is_pow_2 tv.size = true
  swap
  · simp [hp] at h
  by_cases hs : tv.size < srs_g2.length
  swap
  · simp [hp, hs] at h
  by_cases hc : srs_g2.length < (commitTableCoeffs dom tv).length
  · simp [hp, hs, hc] at h
  by_cases hb : wrapSub (wrapSub R 1) (wrapSub D 2) < srs_g2.length
  swap
  · simp [hp, hs, hc, hb] at h
  rw [if_pos hp, if_pos hs, if_neg hc, if_pos hb] at h
  injection h with h
  exact ⟨hp, hs, hc, hb, h.symm⟩

/-! A concrete instantiation for witnesses and counterexamples:
`F := ZMod 5` ordered by canonical representative (the order `BTreeMap` uses
on serialized scalars is the numeric order of the canonical form), groups
instantiated with concrete modules over `ZMod 5`. -/

instance : Fact (Nat.Prime 5) := ⟨by norm_num⟩

instance : LinearOrder (ZMod 5) := LinearOrder.lift' ZMod.val (ZMod.val_injective 5)

/-- Evaluation-domain data over `ZMod 5` for tables of size two: `4 = -1` is
the primitive second root of unity (its own inverse), and `3 = 2⁻¹` is the
inverse-FFT normalization divisor. -/
def dom5 : Nat → Nat → DomainData (ZMod 5) := fun _ _ => ⟨4, 4, 3⟩

/-- Sanity: `dom5` describes a genuine size-two evaluation domain. -/
theorem dom5_valid :
    (dom5 2 1).omega ^ 2 = 1 ∧ (dom5 2 1).omega ≠ 1 ∧
    (dom5 2 1).omega * (dom5 2 1).omega_inv = 1 ∧
    (dom5 2 1).ifft_divisor * 2 = 1 := by decide

/-- A sorted table of two distinct values. -/
def valsW : List (ZMod 5) := [0, 1]

/-- A one-element first-group reference string over the trivial module. -/
def srsW : List PUnit := [PUnit.unit]

/-- The table `new dom5 valsW srsW` builds. -/
def tvW : StaticTableValues (ZMod 5) PUnit :=
  ⟨2, [(0, 0), (1, 1)], [PUnit.unit, PUnit.unit]⟩

/-- An unsorted table of two distinct values. -/
def valsX : List (ZMod 5) := [2, 1]

/-- The table `new dom5 valsX [PUnit.unit]` builds: the mapping is keyed in
ascending order `[(1, 1), (2, 0)]`, not in array order. -/
def tvX : StaticTableValues (ZMod 5) PUnit :=
  ⟨2, [(1, 1), (2, 0)], [PUnit.unit, PUnit.unit]⟩

/-- A size-two table over `G1 := ZMod 5` used for `commit` witnesses
(`commit` never reads `qs`). -/
def tvC : StaticTableValues (ZMod 5) (ZMod 5) := ⟨2, [(0, 0), (1, 1)], [0, 0]⟩

/-- A table whose size field is 3 (not a power of two). -/
def tv3 : StaticTableValues (ZMod 5) (ZMod 5) := ⟨3, [], []⟩

/-- A table whose size field is 0 (not a power of two either, yet accepted by
the wrapping `is_pow_2` check). -/
def tv0 : StaticTableValues (ZMod 5) (ZMod 5) := ⟨0, [], []⟩

/-! The claims. -/

/-- C1: for every table passing the preconditions, `new` sets the `i`-th
element of `qs` to the multi-scalar multiplication, against the equal-length
prefix of `srs_g1`, of the coefficients of the synthetic-division quotient
`(T(X) - T(g_i)) / (X - g_i)` of the inverse-FFT coefficients of `values`,
each scaled by `g_i · size⁻¹` — `specQuotientComm`, the formula as the
specification words it. -/
theorem new_quotient_formula
    {F G1 : Type} [Field F] [LinearOrder F] [AddCommGroup G1] [Module F G1]
    (dom : Nat → Nat → DomainData F) (values : List F) (srs_g1 : List G1)
    (tv : StaticTableValues F G1) (i : Nat)
    (h : new dom values srs_g1 = Except.ok tv) (hi : i < values.length) :
    tv.qs.getD i 0 = specQuotientComm dom values srs_g1 i := by
  rcases new_ok h with ⟨-, -, -, -, -, hq⟩
  have hroot := rootsOfUnity_getD ((dom 2 (log2 values.length)).omega) hi
  have hfi := mapOrNone_getD _ 0 0 _ _ hq i (by simpa [rootsOfUnity_length] using hi)
  rw [hroot] at hfi
  rw [quotientCommAt] at hfi
  by_cases hc : srs_g1.length <
      ((kate_division (newTableCoeffs dom values)
          (((dom 2 (log2 values.length)).omega) ^ i)).map
        fun v => v * (((dom 2 (log2 values.length)).omega) ^ i) *
          (((values.length : Nat) : F))⁻¹).length
  · rw [if_pos hc] at hfi
    cases hfi
  · rw [if_neg hc] at hfi
    injection hfi with hfi
    rw [← hfi, specQuotientComm]
    have hmap : ((kate_division (newTableCoeffs dom values)
          (((dom 2 (log2 values.length)).omega) ^ i)).map
        fun v => v * (((dom 2 (log2 values.length)).omega) ^ i) *
          (((values.length : Nat) : F))⁻¹)
        = ((kate_division (newTableCoeffs dom values)
          (((dom 2 (log2 values.length)).omega) ^ i)).map
        fun v => v * ((((dom 2 (log2 values.length)).omega) ^ i) *
          (((values.length : Nat) : F))⁻¹)) := by
      apply List.map_congr_left
      intro a _
      ring
    rw [hmap]

/-- C1 witness: the size-two sorted table over `ZMod 5`, at root index 1. -/
theorem new_quotient_formula_witness :
    tvW.qs.getD 1 0 = specQuotientComm dom5 valsW srsW 1 :=
  new_quotient_formula dom5 valsW srsW tvW 1 (by decide) (by decide)

/-- C2 counterexample: `new` succeeds on the unsorted table `[2, 1]` over
`ZMod 5`, yet the coefficients `commit` recovers from the sorted key order
differ from the coefficients `new` recovers from array order: `[4, 2]`
against `[4, 3]`. -/
theorem commit_coeffs_mismatch_cex :
    new dom5 valsX srsW = Except.ok tvX ∧
    commitTableCoeffs dom5 tvX ≠ newTableCoeffs dom5 valsX :=
  ⟨by decide, by decide⟩

/-- C2 (amended): the coefficient recovery of `commit` (inverse FFT over the
sorted key order) coincides with the table polynomial of `new` (inverse FFT
over array order) exactly when the input array was already sorted in
strictly increasing key order. -/
theorem commit_recovers_new_coeffs_of_sorted
    {F G1 : Type} [Field F] [LinearOrder F] [AddCommGroup G1] [Module F G1]
    (dom : Nat → Nat → DomainData F) (values : List F) (srs_g1 : List G1)
    (tv : StaticTableValues F G1)
    (h : new dom values srs_g1 = Except.ok tv)
    (hsorted : List.Sorted (· < ·) values) :
    commitTableCoeffs dom tv = newTableCoeffs dom values := by
  rcases new_ok h with ⟨-, -, -, hsz, hmap, -⟩
  simp only [commitTableCoeffs, newTableCoeffs]
  rw [hsz, hmap, buildMap_keys_of_sorted hsorted]

/-- C2 witness (amended claim): the sorted table `[0, 1]`. -/
theorem commit_recovers_new_coeffs_of_sorted_witness :
    commitTableCoeffs dom5 tvW = newTableCoeffs dom5 valsW :=
  commit_recovers_new_coeffs_of_sorted dom5 valsW srsW tvW (by decide) (by decide)

/-- C3 counterexample: the empty table has size 0 — not a power of two — yet
`new` does not fail with `InvalidTableSize`: the size check passes (cf. C10)
and the construction dies later, at the inversion of the zero table size. -/
theorem new_size_zero_cex :
    (¬ ∃ k, (0 : Nat) = 2 ^ k) ∧
    new dom5 ([] : List (ZMod 5)) ([] : List PUnit) =
      Except.error TableError.InversionFailed ∧
    new dom5 ([] : List (ZMod 5)) ([] : List PUnit) ≠
      Except.error TableError.InvalidTableSize := by
  refine ⟨?_, by decide, by decide⟩
  rintro ⟨k, hk⟩
  have := pow_pos (show (0 : ℕ) < 2 by norm_num) k
  omega

/-- C3 (amended): for every table size `n ≥ 1` that is not a power of two,
`new` fails with `InvalidTableSize` (size 0 instead passes the size check and
fails at the inversion of zero); and for every `n = 2 ^ k`, `new` succeeds on
`n` pairwise-distinct values, given the ambient preconditions that the field
characteristic does not divide `n` and `srs_g1` holds at least `n - 1`
elements. -/
theorem new_pow2_check_and_success
    {F G1 : Type} [Field F] [LinearOrder F] [AddCommGroup G1] [Module F G1]
    (dom : Nat → Nat → DomainData F) (values : List F) (srs_g1 : List G1) :
    (1 ≤ values.length → values.length < 2 ^ 64 → (¬ ∃ k, values.length = 2 ^ k) →
      new dom values srs_g1 = Except.error TableError.InvalidTableSize) ∧
    ((∃ k, values.length = 2 ^ k) → values.length < 2 ^ 64 → values.Nodup →
      ((values.length : Nat) : F) ≠ 0 → values.length - 1 ≤ srs_g1.length →
      ∃ tv, new dom values srs_g1 = Except.ok tv) := by
  constructor
  · intro h1 h2 hk
    have hp : is_pow_2 values.length = false := by
      rcases hb : is_pow_2 values.length
      · rfl
      · exact absurd ((is_pow_2_iff h1 h2).mp hb) hk
    simp [new, hp]
  · rintro ⟨k, hk⟩ h2 hnd hz hsrs
    have h1 : 1 ≤ values.length := by
      have := pow_pos (show (0 : ℕ) < 2 by norm_num) k
      omega
    have hp : is_pow_2 values.length = true := (is_pow_2_iff h1 h2).mpr ⟨k, hk⟩
    exact new_succeeds dom values srs_g1 hp hnd hz hsrs

/-- C4 counterexample: the duplicate array `[1, 1, 1]` has length 3, so the
power-of-two assertion fires first and `new` fails with `InvalidTableSize`,
not with `DuplicateTableValue`. -/
theorem new_duplicate_cex :
    ¬ ([1, 1, 1] : List (ZMod 5)).Nodup ∧
    new dom5 ([1, 1, 1] : List (ZMod 5)) ([] : List PUnit) =
      Except.error TableError.InvalidTableSize ∧
    new dom5 ([1, 1, 1] : List (ZMod 5)) ([] : List PUnit) ≠
      Except.error TableError.DuplicateTableValue :=
  ⟨by decide, by decide, by decide⟩

/-- C4 (amended): for every input array whose length is a power of two and
which contains a repeated value, `new` fails with `DuplicateTableValue`
(detected because the distinct-key count of the value→index mapping is
smaller than `values.len()`), and no table is returned. -/
theorem new_duplicate_detection
    {F G1 : Type} [Field F] [LinearOrder F] [AddCommGroup G1] [Module F G1]
    (dom : Nat → Nat → DomainData F) (values : List F) (srs_g1 : List G1)
    (hpow : ∃ k, values.length = 2 ^ k) (hlt : values.length < 2 ^ 64)
    (hdup : ¬ values.Nodup) :
    new dom values srs_g1 = Except.error TableError.DuplicateTableValue := by
  have h1 : 1 ≤ values.length := by
    rcases hpow with ⟨k, hk⟩
    have := pow_pos (show (0 : ℕ) < 2 by norm_num) k
    omega
  have hp : is_pow_2 values.length = true := (is_pow_2_iff h1 hlt).mpr hpow
  have hm := buildMap_length_ne_of_dup hdup
  simp [new, hp, hm]

/-- C4 witness (amended claim): the length-two duplicate array `[1, 1]`. -/
theorem new_duplicate_detection_witness :
    new dom5 ([1, 1] : List (ZMod 5)) ([] : List PUnit) =
      Except.error TableError.DuplicateTableValue :=
  new_duplicate_detection dom5 [1, 1] [] ⟨1, rfl⟩ (by norm_num) (by decide)

/-- C5: every table `new` builds satisfies `qs.length = size`, and its `i`-th
quotient commitment is the one computed at the `i`-th root of the fixed
enumeration `1, w, w², …`, that is at `omega ^ i`. -/
theorem new_qs_alignment
    {F G1 : Type} [Field F] [LinearOrder F] [AddCommGroup G1] [Module F G1]
    (dom : Nat → Nat → DomainData F) (values : List F) (srs_g1 : List G1)
    (tv : StaticTableValues F G1) (i : Nat)
    (h : new dom values srs_g1 = Except.ok tv) (hi : i < tv.size) :
    tv.qs.length = tv.size ∧
    quotientCommAt srs_g1 (((values.length : Nat) : F))⁻¹ (newTableCoeffs dom values)
      (((dom 2 (log2 values.length)).omega) ^ i) = some (tv.qs.getD i 0) := by
  rcases new_ok h with ⟨-, -, -, hsz, -, hq⟩
  have hlen : tv.qs.length = values.length := by
    have := mapOrNone_length _ _ _ hq
    simpa [rootsOfUnity_length] using this
  have hi2 : i < values.length := by omega
  refine ⟨by rw [hlen, hsz], ?_⟩
  have hroot := rootsOfUnity_getD ((dom 2 (log2 values.length)).omega) hi2
  have hfi := mapOrNone_getD _ 0 0 _ _ hq i (by simpa [rootsOfUnity_length] using hi2)
  rw [hroot] at hfi
  exact hfi

/-- C5 witness: the size-two sorted table over `ZMod 5`, at index 1. -/
theorem new_qs_alignment_witness :
    tvW.qs.length = tvW.size ∧
    quotientCommAt srsW (((valsW.length : Nat) : ZMod 5))⁻¹ (newTableCoeffs dom5 valsW)
      (((dom5 2 (log2 valsW.length)).omega) ^ 1) = some (tvW.qs.getD 1 0) :=
  new_qs_alignment dom5 valsW srsW tvW 1 (by decide) (by decide)

/-- C6: whenever `commit` returns, the bound element is the second-group SRS
element at index `R - 1 - (D - 2)` for `reference_g1_length = R` and
`circuit_domain_size = D` (both in the range where the `usize` subtractions
do not wrap), and the stored reference size equals `R`. -/
theorem commit_bound_index
    {F G1 G2 : Type} [Field F] [AddCommGroup G1] [Module F G1]
    [AddCommGroup G2] [Module F G2]
    (dom : Nat → Nat → DomainData F) (tv : StaticTableValues F G1)
    (R : Nat) (srs_g2 : List G2) (D : Nat) (ct : StaticCommittedTable G2)
    (hD : 2 ≤ D) (hDR : D - 2 ≤ R - 1) (hR : 1 ≤ R)
    (hRlt : R < 2 ^ 64) (hDlt : D < 2 ^ 64)
    (h : commit dom tv R srs_g2 D = Except.ok ct) :
    ct.x_b0_bound = srs_g2.getD (R - 1 - (D - 2)) 0 ∧ ct.size = R := by
  rcases commit_ok h with ⟨-, -, -, -, hct⟩
  have e1 : wrapSub R 1 = R - 1 := wrapSub_eq_sub (by omega) hRlt
  have e2 : wrapSub D 2 = D - 2 := wrapSub_eq_sub (by omega) hDlt
  have e3 : wrapSub (R - 1) (D - 2) = R - 1 - (D - 2) := wrapSub_eq_sub hDR (by omega)
  rw [hct]
  simp [e1, e2, e3]

/-- C6 witness: `R = 16`, `D = 4` gives the bound element at index 13. -/
theorem commit_bound_index_witness :
    (⟨0, 0, 1, 16⟩ : StaticCommittedTable (ZMod 5)).x_b0_bound =
      (List.replicate 17 (1 : ZMod 5)).getD (16 - 1 - (4 - 2)) 0 ∧
    (⟨0, 0, 1, 16⟩ : StaticCommittedTable (ZMod 5)).size = 16 :=
  commit_bound_index dom5 tvC 16 (List.replicate 17 (1 : ZMod 5)) 4 ⟨0, 0, 1, 16⟩
    (by norm_num) (by norm_num) (by norm_num) (by norm_num) (by norm_num) (by decide)

/-- C7 counterexample: a size-0 table is within the scope of the claim
("fails with `InvalidTableSize` when the table size is not a power of two")
and 0 is not a power of two, yet `commit` does not fail with
`InvalidTableSize`: the wrapping `is_pow_2` check accepts 0 (cf. C10), so the
assertion never fires — in this embedding, where the external
evaluation-domain service is total, `commit` even returns a `CommittedTable`
(the real code instead dies inside the external `log2`/`EvaluationDomain`
machinery, again not with `InvalidTableSize`). -/
theorem commit_size_zero_cex :
    (¬ ∃ k, tv0.size = 2 ^ k) ∧
    commit dom5 tv0 16 (List.replicate 17 (1 : ZMod 5)) 4 =
      Except.ok ⟨0, 0, 1, 16⟩ ∧
    commit dom5 tv0 16 (List.replicate 17 (1 : ZMod 5)) 4 ≠
      Except.error TableError.InvalidTableSize := by
  refine ⟨?_, by decide, by decide⟩
  rintro ⟨k, hk⟩
  have h0 : tv0.size = 0 := rfl
  have := pow_pos (show (0 : ℕ) < 2 by norm_num) k
  rw [h0] at hk
  omega

/-- C7 (amended): for every table of positive size, `commit` fails with
`InvalidTableSize` when the size is not a power of two, and fails with
`ReferenceStringTooShort` whenever the vanishing-commitment index, the
table-commitment length or the bound-element index exceeds the supplied
second-group reference string; in either case no `CommittedTable` is
returned (the result is an error, not an `ok`). Size 0 is the exception the
counterexample exhibits: the wrapping power-of-two assert accepts it. -/
theorem commit_failure_conditions
    {F G1 G2 : Type} [Field F] [AddCommGroup G1] [Module F G1]
    [AddCommGroup G2] [Module F G2]
    (dom : Nat → Nat → DomainData F) (tv : StaticTableValues F G1)
    (R : Nat) (srs_g2 : List G2) (D : Nat)
    (hpos : 1 ≤ tv.size) (hlt : tv.size < 2 ^ 64) :
    ((¬ ∃ k, tv.size = 2 ^ k) →
      commit dom tv R srs_g2 D = Except.error TableError.InvalidTableSize) ∧
    ((∃ k, tv.size = 2 ^ k) →
      (srs_g2.length ≤ tv.size ∨
        srs_g2.length < (commitTableCoeffs dom tv).length ∨
        srs_g2.length ≤ wrapSub (wrapSub R 1) (wrapSub D 2)) →
      commit dom tv R srs_g2 D = Except.error TableError.ReferenceStringTooShort) := by
  constructor
  · intro hk
    have hp : is_pow_2 tv.size = false := by
      rcases hb : is_pow_2 tv.size
      · rfl
      · exact absurd ((is_pow_2_iff hpos hlt).mp hb) hk
    simp [commit, hp]
  · intro hk hcond
    have hp : is_pow_2 tv.size = true := (is_pow_2_iff hpos hlt).mpr hk
    by_cases h1 : tv.size < srs_g2.length
    swap
    · simp [commit, hp, h1]
    by_cases h2 : srs_g2.length < (commitTableCoeffs dom tv).length
    · simp [commit, hp, h1, h2]
    by_cases h3 : wrapSub (wrapSub R 1) (wrapSub D 2) < srs_g2.length
    · exfalso
      rcases hcond with hc | hc | hc
      · omega
      · omega
      · omega
    · simp [commit, hp, h1, h2, h3]

/-- C7 witness: the power-of-two table `tvC` (size 2) against an empty
second-group reference string is rejected as `ReferenceStringTooShort`. -/
theorem commit_failure_conditions_witness :
    commit dom5 tvC 16 ([] : List (ZMod 5)) 4 =
      Except.error TableError.ReferenceStringTooShort :=
  (commit_failure_conditions dom5 tvC 16 [] 4 (by decide) (by decide)).2
    ⟨1, rfl⟩ (Or.inl (by decide))

/-- Demonstration of the other half of C7 (independently of the claim
theorem): a positive non-power-of-two size, 3, is rejected by `commit` as
`InvalidTableSize` even with an ample reference string. -/
theorem commit_size_three_demo :
    commit dom5 tv3 16 (List.replicate 17 (1 : ZMod 5)) 4 =
      Except.error TableError.InvalidTableSize := by decide

/-- C8: `required_degree` returns `max(3, 2 + input.degree())`. -/
theorem required_degree_eq {F : Type} (a : Argument F) :
    a.required_degree = max 3 (2 + a.input.degree) := rfl

/-- C9: `commit` is a pure, deterministic derivation — two calls on the same
table with the same reference-string length, second-group elements and
circuit-domain size return equal results (and, the embedding being a total
function of its arguments, touch no other state). -/
theorem commit_deterministic
    {F G1 G2 : Type} [Field F] [AddCommGroup G1] [Module F G1]
    [AddCommGroup G2] [Module F G2]
    (dom : Nat → Nat → DomainData F) (tv : StaticTableValues F G1)
    (srs_g1_len : Nat) (srs_g2 : List G2) (circuit_domain : Nat)
    (r1 r2 : Except TableError (StaticCommittedTable G2))
    (h1 : commit dom tv srs_g1_len srs_g2 circuit_domain = r1)
    (h2 : commit dom tv srs_g1_len srs_g2 circuit_domain = r2) :
    r1 = r2 := h1.symm.trans h2

/-- C9 witness: committing `tvC` twice against the same 17-element reference
string yields the same `CommittedTable`. -/
theorem commit_deterministic_witness :
    (Except.ok (⟨0, 0, 1, 16⟩ : StaticCommittedTable (ZMod 5)) :
      Except TableError (StaticCommittedTable (ZMod 5))) =
      Except.ok ⟨0, 0, 1, 16⟩ :=
  commit_deterministic dom5 tvC 16 (List.replicate 17 (1 : ZMod 5)) 4
    (Except.ok ⟨0, 0, 1, 16⟩) (Except.ok ⟨0, 0, 1, 16⟩) (by decide) (by decide)

/-- C10: `is_pow_2 0` computes `0 & (0 - 1)` with the subtraction wrapping to
`2 ^ 64 - 1`, returns `true`, and consequently the power-of-two size check of
`new` does not reject an empty values array (the failure, when it comes, is a
later one — see C3's counterexample). -/
theorem is_pow_2_zero_and_empty_not_rejected
    {F G1 : Type} [Field F] [LinearOrder F] [AddCommGroup G1] [Module F G1]
    (dom : Nat → Nat → DomainData F) (srs_g1 : List G1) :
    is_pow_2 0 = true ∧
    new dom ([] : List F) srs_g1 ≠ Except.error TableError.InvalidTableSize := by
  have h0 : is_pow_2 0 = true := by decide
  refine ⟨h0, ?_⟩
  have hnew : new dom ([] : List F) srs_g1 = Except.error TableError.InversionFailed := by
    simp [new, h0, buildMap, buildMapAux, invert]
  rw [hnew]
  simp

end StaticLookup
